import Mathlib

/-!
Verification of the SKU drilldown dashboard engine (odaysalim/sku_app).

The development shallowly embeds the engine of the current main implementation
(the second `SKUDashboard` component in `src/App.jsx`, identical to the first
component in the repository file embedded here as `part_002`): the numeric
coercer `toNumberStrict`, the aggregation pipeline `grouped`, the rank-relative
encoder `colorized`, and the drill-path handlers `onBarClick`, `drillBack`,
`drillHome`, plus breadcrumb truncation.  The legacy variant (first component in
`App.jsx`, also `part_000` and `part_001`) is embedded where a claim cites it:
its permissive coercer `toNumber` and its depth-3 drill machine
(`handleBarClick`, `isLeafLevelV1`, `filteredDataV1`).

JavaScript finite doubles are modelled as rationals; the JS value NaN and the
JS value undefined (an absent object field) are both modelled as `none` of
`Option` — the code only ever produces or tests them through `Number.isFinite`
and truthiness, which identify the two.  Sign of zero and float rounding are
not modelled; all concrete values appearing in the claims are exact.
-/

namespace SkuApp

/-- A JavaScript cell value as it reaches the numeric coercers: a finite
number, a string, null, or undefined. -/
inductive JsValue where
  | num (q : ℚ)
  | str (s : String)
  | nullv
  | undef
deriving DecidableEq

/-- JS `Number(x) || 0`, applied to a possibly-missing (or NaN) value: a
missing value coerces to 0, a present value (including 0) is kept. -/
def jsOr (o : Option ℚ) : ℚ := o.getD 0

/-- Whitespace recognized by JS `String.prototype.trim` (common subset:
space, tab, newline, carriage return). -/
def isWs (c : Char) : Bool :=
  c == ' ' || c == '\t' || c == '\n' || c == '\r'

/-- JS `s.trim()`, as a character list. -/
def jsTrim (s : String) : List Char :=
  ((s.data.dropWhile isWs).reverse.dropWhile isWs).reverse

/-- JS `.replace(/,/g, "")`: remove every comma. -/
def stripCommas (cs : List Char) : List Char := cs.filter (fun c => c != ',')

/-- The magnitude-suffix table `{ k: 1e3, K: 1e3, m: 1e6, M: 1e6, b: 1e9, B: 1e9 }`. -/
def suffixMult (c : Char) : Option ℚ :=
  if c = 'k' ∨ c = 'K' then some 1000
  else if c = 'm' ∨ c = 'M' then some 1000000
  else if c = 'b' ∨ c = 'B' then some 1000000000
  else none

/-- Value of a digit string. -/
def digitsVal (ds : List Char) : Nat :=
  ds.foldl (fun a c => a * 10 + (c.toNat - 48)) 0

/-- Match against the pattern of both coercers,
`^(-?\d+(?:\.\d+)?)([kKmMbB])?$` : optional minus, digits, optional decimal
fraction, optional single magnitude-suffix letter; the numeric part is scaled
by the suffix multiplier (default 1).  Returns `none` when the whole string
does not match. -/
def parseStrict (cs : List Char) : Option ℚ :=
  let (neg, cs1) : Bool × List Char :=
    match cs with
    | '-' :: t => (true, t)
    | _ => (false, cs)
  let (ds, cs2) := cs1.span (·.isDigit)
  if ds.isEmpty then none
  else
    let fracStep : Option (Option (List Char) × List Char) :=
      match cs2 with
      | '.' :: t =>
        let (fs, r) := t.span (·.isDigit)
        if fs.isEmpty then none else some (some fs, r)
      | _ => some (none, cs2)
    match fracStep with
    | none => none
    | some (fracDigits, cs3) =>
      let multOpt : Option ℚ :=
        match cs3 with
        | [] => some 1
        | [c] => suffixMult c
        | _ => none
      match multOpt with
      | none => none
      | some mult =>
        let base : ℚ :=
          (digitsVal ds : ℚ) +
            (match fracDigits with
             | none => 0
             | some fs => (digitsVal fs : ℚ) / ((10 : ℚ) ^ fs.length))
        some ((if neg then -base else base) * mult)

/-- Strict numeric coercer `toNumberStrict` of the main implementation: a
finite number is returned as is; a non-string otherwise is NaN; a string is
trimmed and comma-stripped, the empty result is NaN, and anything not matching
the strict pattern is NaN (there is no permissive fallback). -/
def toNumberStrict : JsValue → Option ℚ
  | .num q => some q
  | .str s =>
    let t := stripCommas (jsTrim s)
    if t.isEmpty then none else parseStrict t
  | .nullv => none
  | .undef => none

/-- ASCII lowercasing of a character, as done by JS `toLowerCase` on ASCII. -/
def toLowerChar (c : Char) : Char :=
  if 65 ≤ c.toNat ∧ c.toNat ≤ 90 then Char.ofNat (c.toNat + 32) else c

/-- JS `Number(s)` on an already-trimmed, already-lowercased string (decimal
fragment of the string-numeric-literal grammar: optional sign, digits with
optional fraction, optional exponent; the empty string is 0).  Hex, octal,
binary and Infinity literals are outside the modelled fragment; the lowered
strings the legacy coercer feeds in never use them in spreadsheet data. -/
def jsNumber (cs : List Char) : Option ℚ :=
  match cs with
  | [] => some 0
  | _ =>
    let (sgn, cs1) : ℚ × List Char :=
      match cs with
      | '-' :: t => (-1, t)
      | '+' :: t => (1, t)
      | _ => (1, cs)
    let (ip, cs2) := cs1.span (·.isDigit)
    let (fp, cs3) : List Char × List Char :=
      match cs2 with
      | '.' :: t => t.span (·.isDigit)
      | _ => ([], cs2)
    if ip.isEmpty ∧ fp.isEmpty then none
    else
      let expFactor : Option ℚ :=
        match cs3 with
        | [] => some 1
        | 'e' :: t =>
          let (esgn, t1) : Bool × List Char :=
            match t with
            | '-' :: u => (true, u)
            | '+' :: u => (false, u)
            | _ => (false, t)
          let (eds, rest) := t1.span (·.isDigit)
          if eds.isEmpty ∨ ¬ rest.isEmpty then none
          else some (if esgn then 1 / (10 : ℚ) ^ digitsVal eds else (10 : ℚ) ^ digitsVal eds)
        | _ => none
      match expFactor with
      | none => none
      | some em => some (sgn * ((digitsVal ip : ℚ) + (digitsVal fp : ℚ) / (10 : ℚ) ^ fp.length) * em)

/-- Permissive legacy coercer `toNumber` (`part_000`, `part_001`, and the last
component of `part_002`): null and undefined become 0; a string is trimmed,
lowercased and comma-stripped, matched against the strict pattern, and on
failure falls through to `Number(s) || 0`, so anything still unparseable
becomes 0.  A finite number round-trips through `String` unchanged. -/
def toNumber : JsValue → ℚ
  | .num q => q
  | .nullv => 0
  | .undef => 0
  | .str s =>
    let t := stripCommas ((jsTrim s).map toLowerChar)
    match parseStrict t with
    | some q => q
    | none => jsOr (jsNumber t)

/-!
Collation.  The main implementation sorts buckets with
`(a, b) => a.name.localeCompare(b.name)`.  Under the default locale of the
browsers the app targets (ICU root/en collation, as in V8), ASCII strings are
compared primarily on case-folded letters, with letter case as a weaker,
tie-breaking level on which lowercase precedes uppercase.  The comparison is
embedded as a lexicographic comparison of a collation key: the case-folded
character codes, followed by a separator smaller than every code, followed by
the per-character case bits.
-/

/-- Primary collation weight of a character: ASCII case folding, shifted by
one so every weight is positive (the separator 0 then sorts a proper prefix
first). -/
def lowerNat (c : Char) : Nat :=
  (if 65 ≤ c.toNat ∧ c.toNat ≤ 90 then c.toNat + 32 else c.toNat) + 1

/-- Tie-breaking case weight of a character: lowercase (and non-letters)
before uppercase. -/
def caseNat (c : Char) : Nat :=
  if 65 ≤ c.toNat ∧ c.toNat ≤ 90 then 1 else 0

/-- Lexicographic comparison of weight lists. -/
def cmpList : List Nat → List Nat → Ordering
  | [], [] => Ordering.eq
  | [], _ :: _ => Ordering.lt
  | _ :: _, [] => Ordering.gt
  | a :: as, b :: bs =>
    if a < b then Ordering.lt else if b < a then Ordering.gt else cmpList as bs

/-- Case-insensitive (primary) collation key of a string. -/
def ciKey (s : String) : List Nat := s.data.map lowerNat

/-- Case tie-break key of a string. -/
def caseKey (s : String) : List Nat := s.data.map caseNat

/-- Full collation key: primary key, separator, case key. -/
def collKey (s : String) : List Nat := ciKey s ++ 0 :: caseKey s

/-- The comparator `a.localeCompare(b) <= 0` used by the bucket sort. -/
def sLe (a b : String) : Prop := cmpList (collKey a) (collKey b) ≠ Ordering.gt

instance : DecidableRel sLe := fun a b => by unfold sLe; infer_instance

/-- Case-insensitive ascending order on strings (primary collation level
only); the specified bucket ordering. -/
def ciLe (a b : String) : Prop := cmpList (ciKey a) (ciKey b) ≠ Ordering.gt

/-!
Data model.  A canonical row as produced by `normalizeRows`: the five
dimension fields, plus one optional rational per canonical measure
(`out[canon]` is set only when `toNumberStrict` did not give NaN, so a present
measure is always a finite number and an absent one reads as undefined).
-/

/-- Canonical row (output of `normalizeRows`). -/
structure Row where
  category : String
  sub_category : String
  item : String
  sku_code : String
  sku_description : String
  revenue : Option ℚ
  margin : Option ℚ
  cost : Option ℚ
  txns : Option ℚ
deriving DecidableEq

/-- The four canonical base measure names, in catalog order. -/
def baseMetrics : List String := ["Revenue", "Margin", "Cost", "No of Transactions"]

/-- Field lookup `r[m]` for a canonical measure name. -/
def rowMeasure (r : Row) (m : String) : Option ℚ :=
  if m = "Revenue" then r.revenue
  else if m = "Margin" then r.margin
  else if m = "Cost" then r.cost
  else if m = "No of Transactions" then r.txns
  else none

/-- Per-row summand `Number(r[m]) || 0`. -/
def rowVal (r : Row) (m : String) : ℚ := jsOr (rowMeasure r m)

/-- Base metrics present in at least one row (`present` set of `parseAndSet`,
filtered through the canonical order). -/
def presentMetrics (rows : List Row) : List String :=
  baseMetrics.filter (fun m => rows.any (fun r => (rowMeasure r m).isSome))

/-- Metric catalog of `parseAndSet`: the present base metrics, plus the
derived `Margin %` when both Revenue and Margin are present. -/
def metricCatalog (rows : List Row) : List String :=
  if "Revenue" ∈ presentMetrics rows ∧ "Margin" ∈ presentMetrics rows
  then presentMetrics rows ++ ["Margin %"] else presentMetrics rows

/-- Dimension lookup `r[key]` for the grouping key; an unknown key reads as
undefined, which is falsy like the empty string. -/
def dimVal (r : Row) (key : String) : String :=
  if key = "category" then r.category
  else if key = "sub_category" then r.sub_category
  else if key = "item" then r.item
  else ""

/-- JS `path[i]` on the drill path: out-of-range reads as undefined, which is
falsy like the empty string. -/
def jsGet (path : List String) (i : Nat) : String := path.getD i ""

/-- Row filter of `grouped`: `if (drillPath[0]) filter category === path[0];
if (drillPath[1]) filter sub_category === path[1]`. -/
def filteredRows (rows : List Row) (path : List String) : List Row :=
  let f1 := if jsGet path 0 ≠ "" then rows.filter (fun r => r.category == jsGet path 0) else rows
  if jsGet path 1 ≠ "" then f1.filter (fun r => r.sub_category == jsGet path 1) else f1

/-- Grouping key for the current drill depth:
`["category", "sub_category", "item"][lvl] || "category"`. -/
def levelKey : Nat → String
  | 0 => "category"
  | 1 => "sub_category"
  | 2 => "item"
  | _ => "category"

/-- Insert a row into the bucket map (JS `Map` keyed by the grouping value,
insertion-ordered, the row appended to the existing member list). -/
def insertGroup (k : String) (r : Row) : List (String × List Row) → List (String × List Row)
  | [] => [(k, [r])]
  | (k2, rs) :: t => if k2 = k then (k2, rs ++ [r]) :: t else (k2, rs) :: insertGroup k r t

/-- One step of the bucket-building loop: `const k = r[key]; if (!k) continue;
bucket.get(k).push(r)`. -/
def groupStep (key : String) (acc : List (String × List Row)) (r : Row) :
    List (String × List Row) :=
  let k := dimVal r key
  if k = "" then acc else insertGroup k r acc

/-- The bucket map built over the filtered rows. -/
def groupRows (l : List Row) (key : String) : List (String × List Row) :=
  l.foldl (groupStep key) []

/-- JS `rs.reduce((a, r) => a + f(r), 0)`. -/
def sumBy (f : Row → ℚ) (rs : List Row) : ℚ := rs.foldl (fun a r => a + f r) 0

/-- Aggregate bucket: name, the four base-measure sums (always finite over
rationals, so always set), and the derived `Margin %`, set only when the
summed Revenue is nonzero. -/
structure Agg where
  name : String
  revenue : ℚ
  margin : ℚ
  cost : ℚ
  txns : ℚ
  marginPct : Option ℚ
deriving DecidableEq

/-- Build one aggregate bucket from its member rows: sum each base measure
with `Number(r[m]) || 0`, then set `Margin %` from the summed Margin and
summed Revenue when the latter is nonzero (the finiteness guards of the
source always hold over rationals). -/
def mkAgg (name : String) (rs : List Row) : Agg :=
  let rev := sumBy (fun r => jsOr r.revenue) rs
  let mar := sumBy (fun r => jsOr r.margin) rs
  let cst := sumBy (fun r => jsOr r.cost) rs
  let tx := sumBy (fun r => jsOr r.txns) rs
  { name := name, revenue := rev, margin := mar, cost := cst, txns := tx,
    marginPct := if rev = 0 then none else some (mar / rev * 100) }

/-- Metric lookup `d[m]` on a bucket object. -/
def aggVal (b : Agg) (m : String) : Option ℚ :=
  if m = "Revenue" then some b.revenue
  else if m = "Margin" then some b.margin
  else if m = "Cost" then some b.cost
  else if m = "No of Transactions" then some b.txns
  else if m = "Margin %" then b.marginPct
  else none

/-- Bucket-sort comparator on aggregates: `a.name.localeCompare(b.name)`. -/
def aggLe (a b : Agg) : Prop := sLe a.name b.name

instance : DecidableRel aggLe := fun a b => by unfold aggLe; infer_instance

/-- The aggregation pass `grouped` of the main implementation: filter by the
drill path, group by the level key skipping falsy keys, aggregate each bucket,
and sort by name.  JS `Array.prototype.sort` is a comparison sort; it is
embedded as a sort with respect to the same comparator (bucket names are
pairwise distinct, so every correct sort yields the same list). -/
def grouped (rows : List Row) (path : List String) : List Agg :=
  if rows.isEmpty then []
  else
    let filtered := filteredRows rows path
    let key := levelKey path.length
    let result := (groupRows filtered key).map (fun p => mkAgg p.1 p.2)
    List.insertionSort aggLe result

/-!
Rank-relative encoder (`colorized` plus its formatting helpers).
-/

/-- Clamp to the unit interval, `Math.max(0, Math.min(1, v))`. -/
def clamp01 (q : ℚ) : ℚ := max 0 (min 1 q)

/-- JS `Math.round`: round half toward positive infinity. -/
def jsRound (q : ℚ) : ℤ := ⌊q + 1 / 2⌋

/-- Digit rendering of a nonnegative tenths count, `m / 10 . m % 10`. -/
def fix1 (m : Nat) : String := toString (m / 10) ++ "." ++ toString (m % 10)

/-- JS `Number.prototype.toFixed(1)` on a rational (nearest tenth, ties toward
positive infinity; sign of zero not modelled). -/
def toFixed1 (q : ℚ) : String :=
  let n : ℤ := jsRound (q * 10)
  if n < 0 then "-" ++ fix1 (-n).toNat else fix1 n.toNat

/-- Percent label `asPct`. -/
def asPct (q : ℚ) : String := toFixed1 q ++ "%"

/-- Compact magnitude label `compact` (finiteness guard always holds over
rationals). -/
def compact (x : ℚ) : String :=
  if 1000000000 ≤ |x| then toFixed1 (x / 1000000000) ++ "B"
  else if 1000000 ≤ |x| then toFixed1 (x / 1000000) ++ "M"
  else if 1000 ≤ |x| then toFixed1 (x / 1000) ++ "K"
  else toString (jsRound x)

/-- Signed-polarity color `marginColor`: green for positive, red for negative,
gray otherwise. -/
def marginColor (v : ℚ) : String :=
  if 0 < v then "#16a34a" else if v < 0 then "#dc2626" else "#9ca3af"

/-- Gradient color `purpleShade`: linear interpolation from indigo-50 to
indigo-800 at the clamped position. -/
def purpleShade (t : ℚ) : String :=
  let p := clamp01 t
  "rgb(" ++ toString (jsRound (237 + (91 - 237) * clamp01 p)) ++ ", "
    ++ toString (jsRound (233 + (33 - 233) * clamp01 p)) ++ ", "
    ++ toString (jsRound (254 + (182 - 254) * clamp01 p)) ++ ")"

/-- Chart-ready record: the bucket spread together with `__color` and
`__label`. -/
structure CEntry where
  agg : Agg
  color : String
  label : String
deriving DecidableEq

/-- Plotted values `grouped.map(d => Number(d[selectedMetric]) || 0)`. -/
def valsOf (gs : List Agg) (metric : String) : List ℚ :=
  gs.map (fun d => jsOr (aggVal d metric))

/-- JS `Math.min(...vs)` over a nonempty list (the encoder only evaluates it
on nonempty input; the empty case is irrelevant and set to 0). -/
def listMin : List ℚ → ℚ
  | [] => 0
  | v :: t => t.foldl min v

/-- JS `Math.max(...vs)` over a nonempty list (empty case irrelevant). -/
def listMax : List ℚ → ℚ
  | [] => 0
  | v :: t => t.foldl max v

/-- Normalization width `const span = max - min || 1`. -/
def spanOf (gs : List Agg) (metric : String) : ℚ :=
  let s := listMax (valsOf gs metric) - listMin (valsOf gs metric)
  if s = 0 then 1 else s

/-- Encoding of one bucket at the given minimum and span. -/
def encodeEntry (metric : String) (mn span : ℚ) (d : Agg) : CEntry :=
  let v := jsOr (aggVal d metric)
  let t := (v - mn) / span
  { agg := d
  , color := if metric = "Margin %" then marginColor v else purpleShade t
  , label := if metric = "Margin %" then asPct v else compact v }

/-- The rank-relative encoder `colorized`: empty on an empty bucket list or a
falsy metric, otherwise one chart record per bucket. -/
def colorized (gs : List Agg) (metric : String) : List CEntry :=
  if gs.isEmpty ∨ metric = "" then []
  else gs.map (encodeEntry metric (listMin (valsOf gs metric)) (spanOf gs metric))

/-!
Drill-path transitions of the main implementation.
-/

/-- Bar click `onBarClick`: no-op on a falsy name, descend only below depth 2. -/
def onBarClick (path : List String) (name : String) : List String :=
  if name = "" then path else if path.length < 2 then path ++ [name] else path

/-- Back button `drillBack`: drop the last path element (`slice(0, -1)`). -/
def drillBack (path : List String) : List String := path.dropLast

/-- Root button `drillHome`. -/
def drillHome (_path : List String) : List String := []

/-- Breadcrumb truncation `setDrillPath(drillPath.slice(0, index))`. -/
def resetToDepth (path : List String) (k : Nat) : List String := path.take k

/-!
Legacy drill machine (first component of `App.jsx`, also `part_000` and
`part_001`): the bar-click handler appends unconditionally on a truthy name,
the grouping memo flags depth 3 and beyond as the leaf level, and the leaf
branch of the render shows the filtered rows.  A bar can only be clicked while
the chart is rendered, that is while the state is not the leaf level — in the
reachable-state relation below, the descent rule is therefore enabled exactly
below depth 3.
-/

/-- Legacy `handleBarClick`: append the clicked name when truthy. -/
def handleBarClick (path : List String) (name : String) : List String :=
  if name = "" then path else path ++ [name]

/-- Legacy `goBack`: guarded drop of the last element. -/
def goBack (path : List String) : List String :=
  if 0 < path.length then path.dropLast else path

/-- Legacy three-level row filter `filteredData`. -/
def filteredDataV1 (rows : List Row) (path : List String) : List Row :=
  let f1 := if 0 < path.length then rows.filter (fun r => r.category == jsGet path 0) else rows
  let f2 := if 1 < path.length then f1.filter (fun r => r.sub_category == jsGet path 1) else f1
  if 2 < path.length then f2.filter (fun r => r.item == jsGet path 2) else f2

/-- Legacy leaf-level flag: false on empty data, true exactly beyond depth 2. -/
def isLeafLevelV1 (rows : List Row) (path : List String) : Bool :=
  if rows.length = 0 then false else if path.length ≤ 2 then false else true

/-- Drill-path states reachable through the legacy UI: start at the root;
descend by clicking a bar (possible only while the chart is rendered, that is
at depth below 3) with a truthy name; go back; go home; or jump to an ancestor
through a breadcrumb. -/
inductive ReachableV1 : List String → Prop where
  | root : ReachableV1 []
  | descend (p : List String) (name : String) (hp : ReachableV1 p) (hname : name ≠ "")
      (hdepth : p.length < 3) : ReachableV1 (handleBarClick p name)
  | ascend (p : List String) (hp : ReachableV1 p) : ReachableV1 (goBack p)
  | home (p : List String) (hp : ReachableV1 p) : ReachableV1 []
  | breadcrumb (p : List String) (k : Nat) (hp : ReachableV1 p) : ReachableV1 (resetToDepth p k)

/-- Concatenation of the member lists of a bucket map (proof helper). -/
def flattenSnd : List (String × List Row) → List Row
  | [] => []
  | p :: t => p.2 ++ flattenSnd t

/-!
Concrete inputs used by the scenario theorem, the witnesses and the
counterexamples.
-/

/-- The two canonical rows of the end-to-end scenario of the spec. -/
def demoRows : List Row :=
  [ { category := "A", sub_category := "X", item := "I1", sku_code := "", sku_description := "",
      revenue := some 100, margin := some 20, cost := none, txns := none },
    { category := "A", sub_category := "X", item := "I2", sku_code := "", sku_description := "",
      revenue := some 50, margin := some (-10), cost := none, txns := none } ]

/-- The root bucket of the scenario. -/
def aggDemoA : Agg :=
  { name := "A", revenue := 150, margin := 10, cost := 0, txns := 0, marginPct := some (20 / 3) }

/-- A one-row set whose only bucket has zero summed Revenue. -/
def rowsC3 : List Row :=
  [ { category := "A", sub_category := "X", item := "I1", sku_code := "", sku_description := "",
      revenue := some 0, margin := some 5, cost := none, txns := none } ]

/-- The bucket built from `rowsC3`. -/
def aggC3 : Agg :=
  { name := "A", revenue := 0, margin := 5, cost := 0, txns := 0, marginPct := none }

/-- Two rows producing one bucket with Margin % exactly 0 and one bucket with
undefined Margin % (zero summed Revenue). -/
def rowsC9 : List Row :=
  [ { category := "A", sub_category := "X", item := "I1", sku_code := "", sku_description := "",
      revenue := some 100, margin := some 0, cost := none, txns := none },
    { category := "B", sub_category := "Y", item := "I2", sku_code := "", sku_description := "",
      revenue := some 0, margin := some 5, cost := none, txns := none } ]

/-- A single bucket used to instantiate the encoder theorem. -/
def aggC10 : Agg :=
  { name := "W", revenue := 5, margin := 1, cost := 0, txns := 0, marginPct := none }

/-!
Collation-order lemmas: `cmpList` is a linear comparison, the bucket
comparator is a total preorder, and it refines the case-insensitive primary
order.
-/

theorem cmpList_eq : ∀ {x y : List Nat}, cmpList x y = Ordering.eq → x = y := by
  intro x
  induction x with
  | nil =>
    intro y h
    cases y with
    | nil => rfl
    | cons b bs => simp [cmpList] at h
  | cons a as ih =>
    intro y h
    cases y with
    | nil => simp [cmpList] at h
    | cons b bs =>
      by_cases h1 : a < b
      · simp [cmpList, h1] at h
      · by_cases h2 : b < a
        · simp [cmpList, h1, h2] at h
        · have hab : a = b := by omega
          subst hab
          simp only [cmpList, if_neg h1, if_neg h2] at h
          rw [ih h]

theorem cmpList_swap : ∀ (x y : List Nat), cmpList y x = (cmpList x y).swap := by
  intro x
  induction x with
  | nil =>
    intro y
    cases y with
    | nil => rfl
    | cons b bs => rfl
  | cons a as ih =>
    intro y
    cases y with
    | nil => rfl
    | cons b bs =>
      by_cases h1 : a < b
      · have h2 : ¬ b < a := by omega
        simp [cmpList, Ordering.swap, h1, h2]
      · by_cases h2 : b < a
        · simp [cmpList, Ordering.swap, h1, h2]
        · simp [cmpList, h1, h2, ih bs]

theorem cmpList_lt_trans :
    ∀ (x y z : List Nat), cmpList x y = Ordering.lt → cmpList y z = Ordering.lt →
      cmpList x z = Ordering.lt := by
  intro x
  induction x with
  | nil =>
    intro y z h1 h2
    cases y with
    | nil => simp [cmpList] at h1
    | cons b bs =>
      cases z with
      | nil => simp [cmpList] at h2
      | cons c cs => simp [cmpList]
  | cons a as ih =>
    intro y z h1 h2
    cases y with
    | nil => simp [cmpList] at h1
    | cons b bs =>
      cases z with
      | nil => simp [cmpList] at h2
      | cons c cs =>
        by_cases hab : a < b
        · by_cases hbc : b < c
          · simp [cmpList, show a < c by omega]
          · by_cases hcb : c < b
            · simp [cmpList, hbc, hcb] at h2
            · simp [cmpList, show a < c by omega]
        · by_cases hba : b < a
          · simp [cmpList, hab, hba] at h1
          · have heq : a = b := by omega
            subst heq
            simp only [cmpList, if_neg hab, if_neg hba] at h1
            by_cases hbc : a < c
            · simp [cmpList, hbc]
            · by_cases hcb : c < a
              · simp [cmpList, hbc, hcb] at h2
              · simp only [cmpList, if_neg hbc, if_neg hcb] at h2 ⊢
                exact ih bs cs h1 h2

theorem sLe_total (a b : String) : sLe a b ∨ sLe b a := by
  unfold sLe
  cases h : cmpList (collKey a) (collKey b) with
  | lt => left; simp [h]
  | eq => left; simp [h]
  | gt =>
    right
    rw [cmpList_swap, h]
    simp [Ordering.swap]

theorem sLe_trans (a b c : String) : sLe a b → sLe b c → sLe a c := by
  unfold sLe
  intro h1 h2
  cases hab : cmpList (collKey a) (collKey b) with
  | gt => exact absurd hab h1
  | eq => rw [cmpList_eq hab]; exact h2
  | lt =>
    cases hbc : cmpList (collKey b) (collKey c) with
    | gt => exact absurd hbc h2
    | eq => rw [← cmpList_eq hbc]; simp [hab]
    | lt => simp [cmpList_lt_trans _ _ _ hab hbc]

instance : IsTotal Agg aggLe := ⟨fun a b => by unfold aggLe; exact sLe_total a.name b.name⟩

instance : IsTrans Agg aggLe :=
  ⟨fun a b c h1 h2 => by
    unfold aggLe at h1 h2 ⊢
    exact sLe_trans _ _ _ h1 h2⟩

theorem cmpList_append_gt :
    ∀ (x y u v : List Nat), (∀ n ∈ x, 1 ≤ n) → cmpList x y = Ordering.gt →
      cmpList (x ++ 0 :: u) (y ++ 0 :: v) = Ordering.gt := by
  intro x
  induction x with
  | nil =>
    intro y u v _ h
    cases y with
    | nil => simp [cmpList] at h
    | cons b bs => simp [cmpList] at h
  | cons a as ih =>
    intro y u v hx h
    cases y with
    | nil =>
      have ha : 1 ≤ a := hx a (by simp)
      simp [cmpList, show ¬ a < 0 by omega, show 0 < a by omega]
    | cons b bs =>
      by_cases hab : a < b
      · simp [cmpList, hab] at h
      · by_cases hba : b < a
        · simp [cmpList, hab, hba]
        · simp only [cmpList, if_neg hab, if_neg hba] at h
          simp only [List.cons_append, cmpList, if_neg hab, if_neg hba]
          exact ih bs u v (fun n hn => hx n (by simp [hn])) h

theorem one_le_lowerNat (c : Char) : 1 ≤ lowerNat c := by
  unfold lowerNat
  split <;> omega

theorem sLe_imp_ciLe (a b : String) : sLe a b → ciLe a b := by
  unfold sLe ciLe collKey
  intro h hgt
  refine h (cmpList_append_gt (ciKey a) (ciKey b) (caseKey a) (caseKey b) ?_ hgt)
  intro n hn
  rcases List.mem_map.mp hn with ⟨c, _, rfl⟩
  exact one_le_lowerNat c

/-!
Grouping lemmas: the bucket map partitions the surviving rows, with pairwise
distinct keys that are exactly the nonempty grouping values.
-/

theorem flattenSnd_insertGroup (k : String) (r : Row) :
    ∀ acc, List.Perm (flattenSnd (insertGroup k r acc)) (flattenSnd acc ++ [r]) := by
  intro acc
  induction acc with
  | nil => simp [insertGroup, flattenSnd]
  | cons p t ih =>
    obtain ⟨k2, rs⟩ := p
    by_cases hk : k2 = k
    · simp only [insertGroup, if_pos hk, flattenSnd]
      simpa [List.append_assoc] using
        (@List.perm_append_comm _ [r] (flattenSnd t)).append_left rs
    · simp only [insertGroup, if_neg hk, flattenSnd]
      simpa [List.append_assoc] using ih.append_left rs

theorem flattenSnd_foldl (key : String) :
    ∀ (l : List Row) (acc),
      List.Perm (flattenSnd (l.foldl (groupStep key) acc))
        (flattenSnd acc ++ l.filter (fun r => dimVal r key != "")) := by
  intro l
  induction l with
  | nil => intro acc; simp
  | cons r t ih =>
    intro acc
    simp only [List.foldl_cons]
    by_cases h : dimVal r key = ""
    · rw [show groupStep key acc r = acc from by simp [groupStep, h]]
      rw [show (r :: t).filter (fun r => dimVal r key != "") =
            t.filter (fun r => dimVal r key != "") from by simp [List.filter_cons, h]]
      exact ih acc
    · rw [show groupStep key acc r = insertGroup (dimVal r key) r acc from by
        simp [groupStep, h]]
      refine (ih (insertGroup (dimVal r key) r acc)).trans ?_
      refine ((flattenSnd_insertGroup (dimVal r key) r acc).append_right
        (t.filter (fun r => dimVal r key != ""))).trans ?_
      rw [show (r :: t).filter (fun r => dimVal r key != "") =
            r :: t.filter (fun r => dimVal r key != "") from by simp [List.filter_cons, h]]
      simp [List.append_assoc]

theorem flattenSnd_groupRows (l : List Row) (key : String) :
    List.Perm (flattenSnd (groupRows l key)) (l.filter (fun r => dimVal r key != "")) := by
  simpa [flattenSnd] using flattenSnd_foldl key l []

theorem keys_insertGroup_mem (k : String) (r : Row) :
    ∀ acc (v : String),
      v ∈ (insertGroup k r acc).map Prod.fst ↔ v ∈ acc.map Prod.fst ∨ v = k := by
  intro acc
  induction acc with
  | nil => intro v; simp [insertGroup]
  | cons p t ih =>
    obtain ⟨k2, rs⟩ := p
    intro v
    by_cases hk : k2 = k
    · subst hk
      simp only [insertGroup, if_true, eq_self_iff_true, List.map_cons, List.mem_cons]
      tauto
    · simp only [insertGroup, if_neg hk, List.map_cons, List.mem_cons, ih]
      tauto

theorem keys_insertGroup_nodup (k : String) (r : Row) :
    ∀ acc, (acc.map Prod.fst).Nodup → ((insertGroup k r acc).map Prod.fst).Nodup := by
  intro acc
  induction acc with
  | nil => intro _; simp [insertGroup]
  | cons p t ih =>
    obtain ⟨k2, rs⟩ := p
    intro h
    simp only [List.map_cons, List.nodup_cons] at h
    by_cases hk : k2 = k
    · simp only [insertGroup, if_pos hk, List.map_cons, List.nodup_cons]
      exact ⟨h.1, h.2⟩
    · simp only [insertGroup, if_neg hk, List.map_cons, List.nodup_cons]
      refine ⟨?_, ih h.2⟩
      intro hmem
      rcases (keys_insertGroup_mem k r t k2).mp hmem with hm | he
      · exact h.1 hm
      · exact hk he

theorem keys_foldl_nodup (key : String) :
    ∀ (l : List Row) (acc), (acc.map Prod.fst).Nodup →
      ((l.foldl (groupStep key) acc).map Prod.fst).Nodup := by
  intro l
  induction l with
  | nil => intro acc h; simpa using h
  | cons r t ih =>
    intro acc h
    simp only [List.foldl_cons]
    by_cases hd : dimVal r key = ""
    · rw [show groupStep key acc r = acc from by simp [groupStep, hd]]
      exact ih acc h
    · rw [show groupStep key acc r = insertGroup (dimVal r key) r acc from by
        simp [groupStep, hd]]
      exact ih _ (keys_insertGroup_nodup _ _ _ h)

theorem keys_foldl_mem (key : String) :
    ∀ (l : List Row) (acc) (v : String),
      v ∈ (l.foldl (groupStep key) acc).map Prod.fst ↔
        v ∈ acc.map Prod.fst ∨ ∃ r, r ∈ l ∧ dimVal r key = v ∧ v ≠ "" := by
  intro l
  induction l with
  | nil => intro acc v; simp
  | cons r t ih =>
    intro acc v
    simp only [List.foldl_cons]
    by_cases hd : dimVal r key = ""
    · rw [show groupStep key acc r = acc from by simp [groupStep, hd]]
      rw [ih]
      constructor
      · rintro (h | ⟨r2, hr2, he, hne⟩)
        · exact Or.inl h
        · exact Or.inr ⟨r2, List.mem_cons_of_mem r hr2, he, hne⟩
      · rintro (h | ⟨r2, hr2, he, hne⟩)
        · exact Or.inl h
        · rcases List.mem_cons.mp hr2 with rfl | hr2
          · exact absurd (he ▸ hd).symm (Ne.symm hne)
          · exact Or.inr ⟨r2, hr2, he, hne⟩
    · rw [show groupStep key acc r = insertGroup (dimVal r key) r acc from by
        simp [groupStep, hd]]
      rw [ih, keys_insertGroup_mem]
      constructor
      · rintro ((h | he) | ⟨r2, hr2, he2, hne⟩)
        · exact Or.inl h
        · exact Or.inr ⟨r, List.mem_cons_self r t, he.symm, he ▸ hd⟩
        · exact Or.inr ⟨r2, List.mem_cons_of_mem r hr2, he2, hne⟩
      · rintro (h | ⟨r2, hr2, he2, hne⟩)
        · exact Or.inl (Or.inl h)
        · rcases List.mem_cons.mp hr2 with rfl | hr2
          · exact Or.inl (Or.inr he2.symm)
          · exact Or.inr ⟨r2, hr2, he2, hne⟩

/-!
Summation lemmas.
-/

theorem foldl_add_eq (f : Row → ℚ) :
    ∀ (l : List Row) (a : ℚ), l.foldl (fun x r => x + f r) a = a + (l.map f).sum := by
  intro l
  induction l with
  | nil => intro a; simp
  | cons r t ih => intro a; simp [ih, add_assoc]

theorem sumBy_eq_sum (f : Row → ℚ) (l : List Row) : sumBy f l = (l.map f).sum := by
  simpa [sumBy] using foldl_add_eq f l 0

theorem sum_flattenSnd (f : Row → ℚ) :
    ∀ bs : List (String × List Row),
      ((flattenSnd bs).map f).sum = (bs.map (fun p => sumBy f p.2)).sum := by
  intro bs
  induction bs with
  | nil => simp [flattenSnd]
  | cons p t ih => simp [flattenSnd, ih, sumBy_eq_sum]

theorem conservation_unsorted (key : String) (f : Row → ℚ) (l : List Row)
    (h : ∀ r ∈ l, dimVal r key ≠ "") :
    ((groupRows l key).map (fun p => sumBy f p.2)).sum = sumBy f l := by
  calc ((groupRows l key).map (fun p => sumBy f p.2)).sum
      = ((flattenSnd (groupRows l key)).map f).sum := (sum_flattenSnd f _).symm
    _ = ((l.filter (fun r => dimVal r key != "")).map f).sum :=
        ((flattenSnd_groupRows l key).map f).sum_eq
    _ = (l.map f).sum := by
        rw [List.filter_eq_self.mpr (fun r hr => bne_iff_ne.mpr (h r hr))]
    _ = sumBy f l := (sumBy_eq_sum f l).symm

/-!
Bucket-construction lemmas.
-/

theorem mkAgg_name (n : String) (rs : List Row) : (mkAgg n rs).name = n := by
  simp [mkAgg]

theorem aggVal_mkAgg_base (m : String) (hm : m ∈ baseMetrics) (n : String) (rs : List Row) :
    jsOr (aggVal (mkAgg n rs) m) = sumBy (fun r => rowVal r m) rs := by
  fin_cases hm <;> simp [aggVal, mkAgg, rowVal, rowMeasure, jsOr]

theorem filteredRows_subset (rows : List Row) (path : List String) :
    ∀ r ∈ filteredRows rows path, r ∈ rows := by
  intro r hr
  simp only [filteredRows] at hr
  split at hr
  · split at hr
    · exact List.mem_of_mem_filter (List.mem_of_mem_filter hr)
    · exact List.mem_of_mem_filter hr
  · split at hr
    · exact List.mem_of_mem_filter hr
    · exact hr

theorem levelKey_cases (n : Nat) (h : n ≤ 2) :
    levelKey n = "category" ∨ levelKey n = "sub_category" ∨ levelKey n = "item" := by
  match n with
  | 0 => exact Or.inl rfl
  | 1 => exact Or.inr (Or.inl rfl)
  | 2 => exact Or.inr (Or.inr rfl)
  | n + 3 => omega

theorem dimVal_ne_empty (r : Row) (key : String)
    (hc : r.category ≠ "" ∧ r.sub_category ≠ "" ∧ r.item ≠ "")
    (hk : key = "category" ∨ key = "sub_category" ∨ key = "item") :
    dimVal r key ≠ "" := by
  rcases hk with rfl | rfl | rfl
  · simpa [dimVal] using hc.1
  · simpa [dimVal] using hc.2.1
  · simpa [dimVal] using hc.2.2

theorem base_of_catalog (rows : List Row) (m : String)
    (hm : m ∈ metricCatalog rows) (hne : m ≠ "Margin %") : m ∈ baseMetrics := by
  unfold metricCatalog at hm
  split at hm
  · rcases List.mem_append.mp hm with h | h
    · exact List.mem_of_mem_filter h
    · simp at h
      exact absurd h hne
  · exact List.mem_of_mem_filter hm

theorem mem_grouped_eq (rows : List Row) (path : List String) (b : Agg)
    (hb : b ∈ grouped rows path) :
    ∃ p, p ∈ groupRows (filteredRows rows path) (levelKey path.length) ∧
      b = mkAgg p.1 p.2 := by
  simp only [grouped] at hb
  split at hb
  · simp at hb
  · have hb2 := (List.perm_insertionSort aggLe _).mem_iff.mp hb
    rcases List.mem_map.mp hb2 with ⟨p, hp, he⟩
    exact ⟨p, hp, he.symm⟩

/-!
Further proof helpers: bucket keys, clamping, and concrete evaluations of the
pipeline reused by the scenario theorem and witnesses.
-/

theorem keys_groupRows_nodup (l : List Row) (key : String) :
    ((groupRows l key).map Prod.fst).Nodup :=
  keys_foldl_nodup key l [] (by simp)

theorem keys_groupRows_mem (l : List Row) (key : String) (v : String) :
    v ∈ (groupRows l key).map Prod.fst ↔ ∃ r, r ∈ l ∧ dimVal r key = v ∧ v ≠ "" := by
  rw [show groupRows l key = l.foldl (groupStep key) [] from rfl, keys_foldl_mem]
  simp

theorem clamp01_idem (q : ℚ) : clamp01 (clamp01 q) = clamp01 q := by
  simp [clamp01, max_def, min_def]
  split_ifs <;> linarith

theorem purpleShade_clamp (t : ℚ) : purpleShade t = purpleShade (clamp01 t) := by
  simp only [purpleShade, clamp01_idem]

theorem clamp01_nonneg (q : ℚ) : 0 ≤ clamp01 q := le_max_left 0 _

theorem clamp01_le_one (q : ℚ) : clamp01 q ≤ 1 :=
  max_le (by norm_num) (min_le_left 1 _)

theorem grouped_demoRows_root : grouped demoRows [] = [aggDemoA] := by
  simp +decide [grouped, filteredRows, jsGet, levelKey, dimVal, groupRows, groupStep,
    insertGroup, mkAgg, sumBy, jsOr, List.insertionSort, List.orderedInsert, demoRows, aggDemoA]
  norm_num

theorem grouped_rowsC9_root : grouped rowsC9 [] =
    [{ name := "A", revenue := 100, margin := 0, cost := 0, txns := 0, marginPct := some 0 },
     { name := "B", revenue := 0, margin := 5, cost := 0, txns := 0, marginPct := none }] := by
  simp +decide [grouped, filteredRows, jsGet, levelKey, dimVal, groupRows, groupStep,
    insertGroup, mkAgg, sumBy, jsOr, List.insertionSort, List.orderedInsert, rowsC9]

theorem toFixed1_twentyThirds : toFixed1 ((20 : ℚ) / 3) = "6.7" := by
  have hround : jsRound ((20 : ℚ) / 3 * 10) = 67 := by
    unfold jsRound
    norm_num
  simp only [toFixed1, hround]
  decide

theorem toFixed1_zero : toFixed1 (0 : ℚ) = "0.0" := by
  have hround : jsRound ((0 : ℚ) * 10) = 0 := by
    unfold jsRound
    norm_num
  simp only [toFixed1, hround]
  decide

/-!
Claim theorems.
-/

/-- C1: for every loaded canonical row set (all three dimensions nonempty in
every row), every drill path of depth at most 2, and every base (non-derived)
measure in the metric catalog, the sum of that measure over all aggregate
buckets equals its sum over the filtered row set feeding the level, and the
returned list has exactly one bucket per distinct non-empty grouping value
among the surviving rows (names pairwise distinct, with membership exactly the
nonempty grouping values). -/
theorem sku_C1 (rows : List Row) (path : List String) (m : String)
    (hcanon : ∀ r ∈ rows, r.category ≠ "" ∧ r.sub_category ≠ "" ∧ r.item ≠ "")
    (hlen : path.length ≤ 2)
    (hm : m ∈ metricCatalog rows) (hbase : m ≠ "Margin %") :
    ((grouped rows path).map (fun b => jsOr (aggVal b m))).sum
        = sumBy (fun r => rowVal r m) (filteredRows rows path)
      ∧ ((grouped rows path).map Agg.name).Nodup
      ∧ (∀ v : String, v ∈ (grouped rows path).map Agg.name ↔
          (v ≠ "" ∧ ∃ r ∈ filteredRows rows path, dimVal r (levelKey path.length) = v)) := by
  have hmb : m ∈ baseMetrics := base_of_catalog rows m hm hbase
  by_cases he : rows.isEmpty
  · have hrows : rows = [] := List.isEmpty_iff.mp he
    subst hrows
    have hfil : filteredRows [] path = [] := by simp [filteredRows]
    refine ⟨?_, ?_, ?_⟩
    · simp [grouped, hfil, sumBy]
    · simp [grouped]
    · intro v
      simp [grouped, hfil]
  · have hgr : grouped rows path =
        List.insertionSort aggLe
          ((groupRows (filteredRows rows path) (levelKey path.length)).map
            (fun p => mkAgg p.1 p.2)) := by
      simp [grouped, he]
    have hperm :
        List.Perm
          (List.insertionSort aggLe
            ((groupRows (filteredRows rows path) (levelKey path.length)).map
              (fun p => mkAgg p.1 p.2)))
          ((groupRows (filteredRows rows path) (levelKey path.length)).map
            (fun p => mkAgg p.1 p.2)) := List.perm_insertionSort _ _
    have hneK : ∀ r ∈ filteredRows rows path, dimVal r (levelKey path.length) ≠ "" :=
      fun r hr =>
        dimVal_ne_empty r _ (hcanon r (filteredRows_subset rows path r hr))
          (levelKey_cases path.length hlen)
    have hnames :
        (((groupRows (filteredRows rows path) (levelKey path.length)).map
            (fun p => mkAgg p.1 p.2)).map Agg.name)
          = (groupRows (filteredRows rows path) (levelKey path.length)).map Prod.fst := by
      rw [List.map_map]
      refine List.map_congr_left (fun p _ => ?_)
      simp [mkAgg]
    refine ⟨?_, ?_, ?_⟩
    · rw [hgr, (hperm.map _).sum_eq, List.map_map]
      rw [List.map_congr_left (fun p _ => ?_)]
      · exact conservation_unsorted _ _ _ hneK
      · simp only [Function.comp_apply]
        exact aggVal_mkAgg_base m hmb p.1 p.2
    · rw [hgr, (hperm.map Agg.name).nodup_iff, hnames]
      exact keys_groupRows_nodup _ _
    · intro v
      rw [hgr, (hperm.map Agg.name).mem_iff, hnames, keys_groupRows_mem]
      constructor
      · rintro ⟨r, hr, he2, hne2⟩
        exact ⟨hne2, r, hr, he2⟩
      · rintro ⟨hne2, r, hr, he2⟩
        exact ⟨r, hr, he2, hne2⟩

/-- C1 witness: the conservation conclusion instantiated on the scenario rows,
the root path and the Revenue measure. -/
theorem sku_C1_witness :
    (∀ r ∈ demoRows, r.category ≠ "" ∧ r.sub_category ≠ "" ∧ r.item ≠ "")
    ∧ ([] : List String).length ≤ 2
    ∧ "Revenue" ∈ metricCatalog demoRows
    ∧ ((grouped demoRows []).map (fun b => jsOr (aggVal b "Revenue"))).sum
        = sumBy (fun r => rowVal r "Revenue") (filteredRows demoRows []) :=
  ⟨by decide, by decide, by decide,
    (sku_C1 demoRows [] "Revenue" (by decide) (by decide) (by decide) (by decide)).1⟩

/-- C2: every bucket computes its derived Margin % as summed Margin over
summed Revenue times 100 (from summed components, not an average of per-row
ratios — on the scenario the per-row-ratio average would give 0, not 20/3);
the scenario rows yield at the root exactly one bucket A with Revenue 150,
Margin 10 and Margin % equal to 10/150*100, displayed as 6.7, and drilling
into A and grouping by sub-category yields one bucket X with identical sums. -/
theorem sku_C2 :
    (∀ (rows : List Row) (path : List String) (b : Agg), b ∈ grouped rows path →
        ∀ p : ℚ, b.marginPct = some p → p = b.margin / b.revenue * 100)
    ∧ grouped demoRows [] = [aggDemoA]
    ∧ (10 : ℚ) / 150 * 100 = 20 / 3
    ∧ (colorized (grouped demoRows []) "Margin %").map CEntry.label = ["6.7%"]
    ∧ grouped demoRows ["A"] =
        [{ name := "X", revenue := 150, margin := 10, cost := 0, txns := 0,
           marginPct := some (20 / 3) }]
    ∧ (20 : ℚ) / 3 ≠ ((20 / 100 + (-10) / 50) / 2) * 100 := by
  refine ⟨?_, grouped_demoRows_root, by norm_num, ?_, ?_, by norm_num⟩
  · intro rows path b hb p hp
    rcases mem_grouped_eq rows path b hb with ⟨q, hq, rfl⟩
    simp only [mkAgg] at hp ⊢
    split at hp
    · exact absurd hp (by simp)
    · simpa using hp.symm
  · rw [grouped_demoRows_root]
    simp +decide [colorized, encodeEntry, valsOf, spanOf, listMin, listMax, jsOr, aggVal,
      asPct, aggDemoA, toFixed1_twentyThirds]
  · simp +decide [grouped, filteredRows, jsGet, levelKey, dimVal, groupRows, groupStep,
      insertGroup, mkAgg, sumBy, jsOr, List.insertionSort, List.orderedInsert, demoRows]
    norm_num

/-- C2 witness: the ratio-from-sums conclusion instantiated on the scenario
root bucket. -/
theorem sku_C2_witness :
    aggDemoA ∈ grouped demoRows []
    ∧ (20 : ℚ) / 3 = aggDemoA.margin / aggDemoA.revenue * 100 := by
  have hmem : aggDemoA ∈ grouped demoRows [] := by
    rw [sku_C2.2.1]
    exact List.mem_singleton.mpr rfl
  exact ⟨hmem, sku_C2.1 demoRows [] _ hmem (20 / 3) rfl⟩

/-- C3: in every aggregation pass, a bucket whose summed Revenue (the ratio
denominator) is zero carries an undefined Margin % — the field is left unset,
reading as undefined and hence NaN under numeric coercion — and in particular
it is never the numeric value 0. -/
theorem sku_C3 (rows : List Row) (path : List String) (b : Agg)
    (hb : b ∈ grouped rows path) (hrev : b.revenue = 0) :
    b.marginPct = none ∧ b.marginPct ≠ some 0 := by
  rcases mem_grouped_eq rows path b hb with ⟨q, hq, rfl⟩
  simp only [mkAgg] at hrev ⊢
  rw [if_pos hrev]
  exact ⟨rfl, by simp⟩

/-- C3 witness: the zero-Revenue bucket of `rowsC3` has an undefined ratio. -/
theorem sku_C3_witness :
    aggC3 ∈ grouped rowsC3 [] ∧ aggC3.revenue = 0 ∧ aggC3.marginPct = none := by
  have hg : grouped rowsC3 [] = [aggC3] := by
    simp +decide [grouped, filteredRows, jsGet, levelKey, dimVal, groupRows, groupStep,
      insertGroup, mkAgg, sumBy, jsOr, List.insertionSort, List.orderedInsert, rowsC3, aggC3]
  have hmem : aggC3 ∈ grouped rowsC3 [] := by
    rw [hg]
    exact List.mem_singleton.mpr rfl
  exact ⟨hmem, rfl, (sku_C3 rowsC3 [] _ hmem rfl).1⟩

/-- C4: the strict numeric coercer maps the string 1,234 to 1234, 2.5k to
2500 and -1.2M to -1200000, and maps the empty string, null and undefined
uniformly to the not-numeric sentinel (NaN, embedded as `none`), never to the
numeric value 0. -/
theorem sku_C4 :
    toNumberStrict (JsValue.str "1,234") = some 1234
    ∧ toNumberStrict (JsValue.str "2.5k") = some 2500
    ∧ toNumberStrict (JsValue.str "-1.2M") = some (-1200000)
    ∧ toNumberStrict (JsValue.str "") = none
    ∧ toNumberStrict JsValue.nullv = none
    ∧ toNumberStrict JsValue.undef = none := by
  refine ⟨?_, ?_, ?_, by decide, by decide, by decide⟩ <;>
    · simp +decide [toNumberStrict, parseStrict, jsTrim, stripCommas, digitsVal, suffixMult,
        isWs]
      try norm_num

/-- C5 counterexample: the strict coercer has no permissive fallback — the
plain-number string 1e3 is reported as not numeric (NaN), not coerced to
1000 — and the legacy permissive coercer reports a still-unparseable string as
the numeric value 0, not as a not-numeric sentinel. -/
theorem sku_C5_cex :
    toNumberStrict (JsValue.str "1e3") = none
    ∧ toNumberStrict (JsValue.str "1e3") ≠ some 1000
    ∧ toNumber (JsValue.str "abc") = 0 := by
  refine ⟨by decide, by decide, ?_⟩
  simp +decide [toNumber, parseStrict, jsTrim, stripCommas, digitsVal, suffixMult, isWs,
    toLowerChar, jsNumber, jsOr]

/-- C5 amended: the legacy coercer `toNumber` falls back, for every string
failing the strict pattern, to the permissive numeric cast with `|| 0` (so the
plain-number string 1e3 coerces to 1000 but a still-unparseable input becomes
the numeric value 0, not a not-numeric sentinel), while the strict coercer
`toNumberStrict` applies no fallback at all and reports every
pattern-failing string as not numeric. -/
theorem sku_C5_thm :
    (∀ s : String, parseStrict (stripCommas ((jsTrim s).map toLowerChar)) = none →
        toNumber (JsValue.str s) = jsOr (jsNumber (stripCommas ((jsTrim s).map toLowerChar))))
    ∧ toNumber (JsValue.str "1e3") = 1000
    ∧ toNumber (JsValue.str "abc") = 0
    ∧ (∀ s : String, parseStrict (stripCommas (jsTrim s)) = none →
        toNumberStrict (JsValue.str s) = none) := by
  refine ⟨?_, ?_, ?_, ?_⟩
  · intro s h
    simp only [toNumber, h]
  · simp +decide [toNumber, parseStrict, jsTrim, stripCommas, digitsVal, suffixMult, isWs,
      toLowerChar, jsNumber, jsOr]
  · simp +decide [toNumber, parseStrict, jsTrim, stripCommas, digitsVal, suffixMult, isWs,
      toLowerChar, jsNumber, jsOr]
  · intro s h
    simp only [toNumberStrict]
    by_cases ht : (stripCommas (jsTrim s)).isEmpty
    · simp [ht]
    · simp [ht, h]

/-- C5 witness: the fallback equation and the no-fallback conclusion
instantiated on concrete strings. -/
theorem sku_C5_witness :
    toNumber (JsValue.str "abc")
        = jsOr (jsNumber (stripCommas ((jsTrim "abc").map toLowerChar)))
    ∧ toNumberStrict (JsValue.str "1e3") = none :=
  ⟨sku_C5_thm.1 "abc" (by decide), sku_C5_thm.2.2.2 "1e3" (by decide)⟩

/-- C6: every aggregation pass returns its buckets sorted by name in
case-insensitive ascending (locale-aware) order — adjacent-free pairwise order
of the primary collation keys — and the output is a function of the row set
and the drill path alone, hence identical across repeated runs on the same
input. -/
theorem sku_C6 (rows : List Row) (path : List String) :
    ((grouped rows path).map Agg.name).Pairwise ciLe
    ∧ ∀ (rows2 : List Row) (path2 : List String), rows = rows2 → path = path2 →
        grouped rows path = grouped rows2 path2 := by
  constructor
  · by_cases he : rows.isEmpty
    · simp [grouped, he]
    · have hgr : grouped rows path =
          List.insertionSort aggLe
            ((groupRows (filteredRows rows path) (levelKey path.length)).map
              (fun p => mkAgg p.1 p.2)) := by
        simp [grouped, he]
      rw [hgr]
      exact List.Pairwise.map Agg.name (fun a b hab => sLe_imp_ciLe a.name b.name hab)
        (List.sorted_insertionSort aggLe _)
  · intro rows2 path2 h1 h2
    rw [h1, h2]

/-- C6 witness: sortedness and determinism instantiated on the scenario rows. -/
theorem sku_C6_witness :
    ((grouped demoRows []).map Agg.name).Pairwise ciLe
    ∧ grouped demoRows [] = grouped demoRows [] :=
  ⟨(sku_C6 demoRows []).1, (sku_C6 demoRows []).2 demoRows [] rfl rfl⟩

/-- C7: from the root, descending into A then B and ascending yields the
drill path [A]; breadcrumb truncation to depth 0 yields the empty path from
any drill path (as does the home button). -/
theorem sku_C7 :
    drillBack (onBarClick (onBarClick [] "A") "B") = ["A"]
    ∧ (∀ path : List String, resetToDepth path 0 = [])
    ∧ (∀ path : List String, drillHome path = []) := by
  refine ⟨by decide, ?_, fun _ => rfl⟩
  intro path
  simp [resetToDepth]

/-- C8: in the legacy drill machine, descending with a truthy name appends
exactly one value (depth + 1); descent is enabled only while the chart is
rendered, that is below depth 3, so every reachable drill path has length at
most 3; and descending at depth 2 lands in the terminal leaf state, whose
rendered row list is the raw row set filtered by the full path including the
clicked item, instead of an aggregated bucket list. -/
theorem sku_C8 :
    (∀ (p : List String) (name : String), name ≠ "" → handleBarClick p name = p ++ [name])
    ∧ (∀ p : List String, ReachableV1 p → p.length ≤ 3)
    ∧ (∀ (rows : List Row) (a b name : String), name ≠ "" → rows ≠ [] →
        isLeafLevelV1 rows (handleBarClick [a, b] name) = true
        ∧ filteredDataV1 rows (handleBarClick [a, b] name)
            = ((rows.filter (fun r => r.category == a)).filter
                (fun r => r.sub_category == b)).filter (fun r => r.item == name)) := by
  have happ : ∀ (p : List String) (name : String), name ≠ "" →
      handleBarClick p name = p ++ [name] := by
    intro p name h
    simp [handleBarClick, h]
  refine ⟨happ, ?_, ?_⟩
  · intro p hp
    induction hp with
    | root => simp
    | descend p name hp hname hdepth ih =>
      rw [happ p name hname]
      simp
      omega
    | ascend p hp ih =>
      unfold goBack
      split
      · have := List.length_dropLast p
        omega
      · exact ih
    | home p hp ih => simp
    | breadcrumb p k hp ih =>
      unfold resetToDepth
      have := List.length_take k p
      omega
  · intro rows a b name hname hrows
    rw [happ [a, b] name hname]
    constructor
    · simp [isLeafLevelV1, List.length_eq_zero, hrows]
    · simp [filteredDataV1, jsGet]

/-- C8 witness: a depth-2 descent on concrete data lands in the leaf state. -/
theorem sku_C8_witness :
    ("I" : String) ≠ "" ∧ demoRows ≠ []
    ∧ isLeafLevelV1 demoRows (handleBarClick ["A", "B"] "I") = true :=
  ⟨by decide, by decide, (sku_C8.2.2 demoRows "A" "B" "I" (by decide) (by decide)).1⟩

/-- C9: evaluation at the failing input.  On `rowsC9` the root pass yields a
bucket with Margin % exactly 0 and a bucket with undefined Margin %, yet the
encoder assigns both the same gray color and the same label 0.0% — the
undefined ratio is coerced to 0 by `Number(d[m]) || 0` instead of being
propagated as no data, so the two cases are visibly indistinguishable. -/
theorem sku_C9_thm :
    (grouped rowsC9 []).map Agg.marginPct = [some 0, none]
    ∧ (colorized (grouped rowsC9 []) "Margin %").map CEntry.color = ["#9ca3af", "#9ca3af"]
    ∧ (colorized (grouped rowsC9 []) "Margin %").map CEntry.label = ["0.0%", "0.0%"] := by
  refine ⟨by rw [grouped_rowsC9_root]; decide, ?_, ?_⟩ <;>
    · rw [grouped_rowsC9_root]
      simp +decide [colorized, encodeEntry, valsOf, spanOf, listMin, listMax, jsOr, aggVal,
        asPct, marginColor, toFixed1_zero]

/-- C10: for every nonempty bucket list under a truthy magnitude (non-ratio)
metric, the min-max normalization width is never zero (a zero-width range is
replaced by 1), every encoded color is the gradient evaluated at a position
clamped into the unit interval, and when all bucket values are equal every
bucket receives one and the same gradient color. -/
theorem sku_C10 (gs : List Agg) (metric : String) (hne : gs ≠ []) (hmet : metric ≠ "")
    (hmag : metric ≠ "Margin %") :
    spanOf gs metric ≠ 0
    ∧ (∀ e ∈ colorized gs metric, ∃ u : ℚ, 0 ≤ u ∧ u ≤ 1 ∧ e.color = purpleShade u)
    ∧ ((∀ b1 ∈ gs, ∀ b2 ∈ gs, jsOr (aggVal b1 metric) = jsOr (aggVal b2 metric)) →
        ∀ e1 ∈ colorized gs metric, ∀ e2 ∈ colorized gs metric, e1.color = e2.color) := by
  have hcol : colorized gs metric
      = gs.map (encodeEntry metric (listMin (valsOf gs metric)) (spanOf gs metric)) := by
    simp [colorized, List.isEmpty_iff, hne, hmet]
  refine ⟨?_, ?_, ?_⟩
  · simp only [spanOf]
    split
    · exact one_ne_zero
    · next h => exact h
  · intro e he
    rw [hcol] at he
    rcases List.mem_map.mp he with ⟨d, hd, rfl⟩
    refine ⟨clamp01 ((jsOr (aggVal d metric) - listMin (valsOf gs metric)) / spanOf gs metric),
      clamp01_nonneg _, clamp01_le_one _, ?_⟩
    simp only [encodeEntry, if_neg hmag]
    exact purpleShade_clamp _
  · intro hall e1 he1 e2 he2
    rw [hcol] at he1 he2
    rcases List.mem_map.mp he1 with ⟨d1, hd1, rfl⟩
    rcases List.mem_map.mp he2 with ⟨d2, hd2, rfl⟩
    simp only [encodeEntry, if_neg hmag]
    rw [hall d1 hd1 d2 hd2]

/-- C10 witness: the encoder conclusions instantiated on a one-bucket list
under the Revenue metric. -/
theorem sku_C10_witness :
    spanOf [aggC10] "Revenue" ≠ 0
    ∧ (∀ e ∈ colorized [aggC10] "Revenue", ∃ u : ℚ, 0 ≤ u ∧ u ≤ 1 ∧ e.color = purpleShade u) :=
  ⟨(sku_C10 [aggC10] "Revenue" (by decide) (by decide) (by decide)).1,
    (sku_C10 [aggC10] "Revenue" (by decide) (by decide) (by decide)).2.1⟩

end SkuApp
